import Mathlib

/-!
Verification of the dataset-generation pipeline of the ctc-asr repository
(files python/dataset/sort_txt_by_seq_len.py and python/dataset/generate_dataset.py).

Manifest lines are modelled as lists of characters.  Audio probing
(load_sample, which lives outside the two files above) is modelled as an
oracle from a wav path to an optional feature length; a None result models a
failing read.  Python exceptions are modelled with Except.  The worker pool
(pool.imap_unordered) delivers results in a nondeterministic order; we model
the in-order schedule, which is one admissible schedule, and no theorem below
depends on the order among samples of equal length.
-/

namespace CtcAsr

abbrev Line := List Char

/-- A scanned sample: (feature length, wav path, transcript label), the tuple
built by a worker in sort_txt_by_seq_len.py. -/
abbrev Sample := Nat × Line × Line

/-- Python-level failures of the pipeline. -/
inductive PyError where
  /-- ValueError from unpacking line.split(' ', 1) when the line has no space. -/
  | unpackError
  /-- Failure of load_sample on a wav path. -/
  | sampleReadError
  /-- ValueError from range(step, len, step) when step is 0. -/
  | rangeStepZero
  /-- ZeroDivisionError from len(lengths) // num_buckets when num_buckets is 0. -/
  | divisionByZero
  /-- ValueError raised by _merge_txt_files on an unknown target split name. -/
  | invalidTarget
deriving DecidableEq

/-- Embeds line.split(' ', 1): split a line at its first space into the part
before it and the part after it; None when the line has no space. -/
def splitFirstSpace : Line → Option (Line × Line)
  | [] => none
  | c :: cs =>
    if c = ' ' then some ([], cs)
    else
      match splitFirstSpace cs with
      | none => none
      | some (p, l) => some (c :: p, l)

/-- Embeds _feature_length of sort_txt_by_seq_len.py: unpack the line into a
wav path and a label, probe the audio file for its length, and return the
tuple (length, wav_path, label). -/
def feature_length (probe : Line → Option Nat) (line : Line) : Except PyError Sample :=
  match splitFirstSpace line with
  | none => .error .unpackError
  | some (wav_path, label) =>
    match probe wav_path with
    | none => .error .sampleReadError
    | some length => .ok (length, wav_path, label)

/-- Embeds the pool.imap_unordered loop of sort_txt_by_seq_len.py: probe every
line, collecting the results into the output buffer; any per-line failure
aborts the whole scan. -/
def scanLines (probe : Line → Option Nat) : List Line → Except PyError (List Sample)
  | [] => .ok []
  | line :: rest =>
    match feature_length probe line with
    | .error e => .error e
    | .ok s =>
      match scanLines probe rest with
      | .error e => .error e
      | .ok ss => .ok (s :: ss)

/-- Order on samples used by sorted(buffer, key=lambda x: x[0]). -/
def lenLE (a b : Sample) : Prop := a.1 ≤ b.1

instance : DecidableRel lenLE := fun a b => Nat.decLe a.1 b.1

instance : IsTotal Sample lenLE := ⟨fun a b => Nat.le_total a.1 b.1⟩

instance : IsTrans Sample lenLE := ⟨fun _ _ _ => Nat.le_trans⟩

/-- Embeds the max_length filter of sort_txt_by_seq_len.py: when max_length is
positive, keep exactly the samples of length strictly below max_length and
record how many samples were removed (the printed count); when max_length is
0 the buffer passes through untouched. -/
def filterStep (max_length : Nat) (buffer : List Sample) : List Sample × Nat :=
  if 0 < max_length then
    let kept := buffer.filter (fun s => s.1 < max_length)
    (kept, buffer.length - kept.length)
  else (buffer, 0)

/-- Worker for the embedded range, structurally recursive on a fuel bound so
that concrete runs evaluate; the fuel stop - start always suffices because a
positive step moves start by at least one per element. -/
def rangeListGo (stop step : Nat) : Nat → Nat → List Nat
  | 0, _ => []
  | fuel + 1, start =>
    if 0 < step ∧ start < stop then start :: rangeListGo stop step fuel (start + step)
    else []

/-- Embeds Python range(start, stop, step) for a positive step. -/
def rangeList (start stop step : Nat) : List Nat :=
  rangeListGo stop step (stop - start) start

/-- Insert a value into a strictly ascending list, keeping it strictly
ascending (duplicates collapse, as in a Python set). -/
def insertDistinct (x : Nat) : List Nat → List Nat
  | [] => [x]
  | y :: ys =>
    if x < y then x :: y :: ys
    else if x = y then y :: ys
    else y :: insertDistinct x ys

/-- Embeds the combination of a Python set with a final .sort(): the strictly
ascending list of the distinct values of the input. -/
def sortedDedup (l : List Nat) : List Nat := l.foldr insertDistinct []

/-- Embeds the bucket computation of sort_txt_by_seq_len.py: step is the
integer quotient of the sample count by num_buckets; the lengths at indices
step, 2*step, ... below the count are collected into a set and sorted.  A
zero num_buckets raises ZeroDivisionError; a zero step makes range raise
ValueError.  The returned list is the full sorted variable buckets (the
caller drops its last element). -/
def computeBuckets (num_buckets : Nat) (lengths : List Nat) : Except PyError (List Nat) :=
  if num_buckets = 0 then .error .divisionByZero
  else
    let step := lengths.length / num_buckets
    if step = 0 then .error .rangeStepZero
    else
      let idxs := rangeList step lengths.length step
      .ok (sortedDedup (idxs.map (fun i => lengths.getD i 0)))

/-- Result of a successful run of sort_txt_by_seq_len: the final buffer (after
sorting and filtering), the returned boundary list buckets[:-1], the total
corpus length sum(lengths) / 0.1, and the printed removed-sample count. -/
structure SortResult where
  buffer : List Sample
  boundaries : List Nat
  totalLength : ℚ
  removed : Nat
deriving DecidableEq

/-- Embeds sort_txt_by_seq_len of sort_txt_by_seq_len.py: scan all lines,
sort the buffer by length, drop samples at or above max_length (when
max_length is positive), compute bucket boundaries, and the total length. -/
def sort_txt_by_seq_len (probe : Line → Option Nat) (lines : List Line)
    (num_buckets max_length : Nat) : Except PyError SortResult :=
  match scanLines probe lines with
  | .error e => .error e
  | .ok buffer0 =>
    let sorted0 := List.insertionSort lenLE buffer0
    let buffer1 := (filterStep max_length sorted0).1
    let lengths := buffer1.map (fun s => s.1)
    match computeBuckets num_buckets lengths with
    | .error e => .error e
    | .ok buckets =>
      .ok { buffer := buffer1
            boundaries := buckets.dropLast
            totalLength := (lengths.sum : ℚ) / (1 / 10)
            removed := (filterStep max_length sorted0).2 }

/-- Embeds the rewrite format string of sort_txt_by_seq_len.py, which joins a
sample's path and label with one space; the measured length is dropped. -/
def renderLine (s : Sample) : Line := s.2.1 ++ ' ' :: s.2.2

/-- The lines written back to the manifest file on success. -/
def SortResult.manifest (r : SortResult) : List Line := r.buffer.map renderLine

/-- Content of the manifest file after a run: the code deletes and rewrites
the file only after every probe succeeded, so on any failure the original
content survives. -/
def finalManifest (probe : Line → Option Nat) (lines : List Line)
    (num_buckets max_length : Nat) : List Line :=
  match sort_txt_by_seq_len probe lines num_buckets max_length with
  | .ok r => r.manifest
  | .error _ => lines

/-- Decoded feature length of a manifest line: split off the path and probe
it. -/
def decodedLen (probe : Line → Option Nat) (line : Line) : Option Nat :=
  match splitFirstSpace line with
  | some (p, _) => probe p
  | none => none

/-- Embeds _merge_txt_files of generate_dataset.py: reject a target split
name outside test/dev/train, otherwise concatenate the given files' lines and
return the target path, the merged lines, and the merged line count. -/
def merge_txt_files (txtDir : String) (txt_files : List (List Line)) (target : String) :
    Except PyError (String × List Line × Nat) :=
  if target = "test" ∨ target = "dev" ∨ target = "train" then
    let buffer := txt_files.flatten
    .ok (txtDir ++ "/" ++ target ++ ".txt", buffer, buffer.length)
  else .error .invalidTarget

/-- The record stored in corpus.json.  JSON is dynamically typed, so the
train_size field can hold the rational that the code actually passes. -/
structure CorpusJson where
  train_size : ℚ
  test_size : Nat
  dev_size : Nat
  boundaries : List Nat
  train_length : ℚ
deriving DecidableEq

/-- Embeds store_corpus_json of generate_dataset.py. -/
def store_corpus_json (train_size : ℚ) (test_size dev_size : Nat)
    (boundaries : List Nat) (train_length : ℚ) : CorpusJson :=
  { train_size := train_size
    test_size := test_size
    dev_size := dev_size
    boundaries := boundaries
    train_length := train_length }

/-- Embeds the merge-and-store tail of generate_dataset of
generate_dataset.py, with the loader outputs passed in as line lists.  The
variable train_len first holds the merged train line count and is then
rebound to the total length returned by sort_txt_by_seq_len, exactly as in
the source, before both store_corpus_json size and length arguments are
taken from it. -/
def generate_dataset (probe : Line → Option Nat) (txtDir : String)
    (cv_train ls_train tatoeba_train ted_train timit_train
     cv_test ls_test ls_dev : List Line) : Except PyError CorpusJson :=
  match merge_txt_files txtDir [cv_train, ls_train, tatoeba_train, ted_train, timit_train]
      ("train") with
  | .error e => .error e
  | .ok (_train_txt, train_lines, _train_len) =>
    match merge_txt_files txtDir [cv_test, ls_test] ("test") with
    | .error e => .error e
    | .ok (_, _, test_len) =>
      match merge_txt_files txtDir [ls_dev] ("dev") with
      | .error e => .error e
      | .ok (_, _, dev_len) =>
        match sort_txt_by_seq_len probe train_lines 64 1700 with
        | .error e => .error e
        | .ok r =>
          let boundaries := r.boundaries
          let train_len := r.totalLength
          .ok (store_corpus_json train_len test_len dev_len boundaries train_len)

/-- Bucket boundaries as the specification describes them: with step the
integer quotient of the sample count by num_buckets, collect the lengths at
the nonzero multiples of step below the count into a set, sort the set
ascending, and return all elements but the last. -/
def spec_bucket_boundaries (num_buckets : Nat) (lengths : List Nat) : List Nat :=
  let count := lengths.length
  let step := count / num_buckets
  let idxs := (List.range count).filter (fun i => i ≠ 0 ∧ i % step = 0)
  let values := (idxs.map (fun i => lengths.getD i 0)).toFinset
  (values.sort (· ≤ ·)).dropLast

/-- Probe for concrete runs: a one-letter path decodes to the letter's code
point, anything else fails. -/
def probeAlpha : Line → Option Nat := fun p =>
  match p with
  | [c] => some c.toNat
  | _ => none

/-- Five concrete manifest lines with one-letter paths a trough e. -/
def linesAlpha5 : List Line :=
  [['a', ' ', 'x'], ['b', ' ', 'x'], ['c', ' ', 'x'], ['d', ' ', 'x'], ['e', ' ', 'x']]

/-- Probe for the generate_dataset run: path a decodes to length 5. -/
def probeA : Line → Option Nat := fun p => if p = ['a'] then some 5 else none

/-- Sixty-four copies of the manifest line a b. -/
def linesTrain64 : List Line := List.replicate 64 ['a', ' ', 'b']

/-- Probe for the max_length scenario: ten one-letter paths with lengths
5, 3, 8, 1, 9, 2, 7, 4, 6 and 1700. -/
def probeTen : Line → Option Nat := fun p =>
  match p with
  | [c] =>
    if c = 'a' then some 5
    else if c = 'b' then some 3
    else if c = 'c' then some 8
    else if c = 'd' then some 1
    else if c = 'e' then some 9
    else if c = 'f' then some 2
    else if c = 'g' then some 7
    else if c = 'h' then some 4
    else if c = 'i' then some 6
    else if c = 'j' then some 1700
    else none
  | _ => none

/-- Directory name used for concrete merge runs. -/
def dirData : String := "data"

/-- The train split name. -/
def tgtTrain : String := "train"

/-- An unrecognized split name. -/
def tgtBad : String := "foo"

/-- Ten concrete manifest lines with one-letter paths a trough j. -/
def linesTen : List Line :=
  [['a', ' ', 't'], ['b', ' ', 't'], ['c', ' ', 't'], ['d', ' ', 't'],
   ['e', ' ', 't'], ['f', ' ', 't'], ['g', ' ', 't'], ['h', ' ', 't'],
   ['i', ' ', 't'], ['j', ' ', 't']]

/-! Helper lemmas about splitting a line at its first space. -/

theorem splitFirstSpace_none_iff (line : Line) :
    splitFirstSpace line = none ↔ ' ' ∉ line := by
  induction line with
  | nil => simp [splitFirstSpace]
  | cons c cs ih =>
    by_cases hc : c = ' '
    · subst hc; simp [splitFirstSpace]
    · simp only [splitFirstSpace, if_neg hc]
      cases h : splitFirstSpace cs with
      | none =>
        simp only [List.mem_cons]
        constructor
        · intro _ h'
          rcases h' with h' | h'
          · exact hc h'.symm
          · exact (ih.mp h) h'
        · intro _; trivial
      | some pl =>
        obtain ⟨p, l⟩ := pl
        simp only [List.mem_cons]
        constructor
        · intro h'; exact Option.noConfusion h'
        · intro hni
          exfalso
          have hcs : ' ' ∉ cs := fun hmem => hni (Or.inr hmem)
          rw [ih.mpr hcs] at h
          exact Option.noConfusion h

theorem splitFirstSpace_spec {line p l : Line} (h : splitFirstSpace line = some (p, l)) :
    ' ' ∉ p ∧ p ++ ' ' :: l = line := by
  induction line generalizing p l with
  | nil => simp [splitFirstSpace] at h
  | cons c cs ih =>
    by_cases hc : c = ' '
    · subst hc
      simp only [splitFirstSpace, if_pos rfl] at h
      obtain ⟨rfl, rfl⟩ := Prod.mk.injEq .. ▸ Option.some.inj h
      simp
    · cases hsplit : splitFirstSpace cs with
      | none => simp [splitFirstSpace, if_neg hc, hsplit] at h
      | some ql =>
        obtain ⟨q, m⟩ := ql
        simp only [splitFirstSpace, if_neg hc, hsplit] at h
        obtain ⟨rfl, rfl⟩ := Prod.mk.injEq .. ▸ Option.some.inj h
        obtain ⟨hq, hm⟩ := ih hsplit
        refine ⟨?_, by simp [hm]⟩
        intro hmem
        rcases List.mem_cons.mp hmem with h' | h'
        · exact hc h'.symm
        · exact hq h'

theorem splitFirstSpace_append {p : Line} (hnp : ' ' ∉ p) (l : Line) :
    splitFirstSpace (p ++ ' ' :: l) = some (p, l) := by
  induction p with
  | nil => simp [splitFirstSpace]
  | cons c cs ih =>
    have hc : ¬c = ' ' := fun h => hnp (h ▸ List.mem_cons_self c cs)
    have hcs : ' ' ∉ cs := fun h => hnp (List.mem_cons_of_mem _ h)
    simp [splitFirstSpace, hc, ih hcs]

theorem splitFirstSpace_of_mem {line : Line} (h : ' ' ∈ line) :
    ∃ p l, splitFirstSpace line = some (p, l) := by
  cases hs : splitFirstSpace line with
  | none => exact absurd h ((splitFirstSpace_none_iff line).mp hs)
  | some pl =>
    obtain ⟨p, l⟩ := pl
    exact ⟨p, l, rfl⟩

/-! Helper lemmas about the per-line probe and the scan. -/

theorem feature_length_ok {probe : Line → Option Nat} {line : Line} {s : Sample}
    (h : feature_length probe line = .ok s) :
    splitFirstSpace line = some (s.2.1, s.2.2) ∧ probe s.2.1 = some s.1 := by
  unfold feature_length at h
  cases hs : splitFirstSpace line with
  | none => simp [hs] at h
  | some pl =>
    obtain ⟨p, l⟩ := pl
    simp only [hs] at h
    cases hp : probe p with
    | none => simp [hp] at h
    | some n =>
      simp only [hp] at h
      obtain rfl := Except.ok.inj h
      exact ⟨rfl, hp⟩

theorem scanLines_ok_mem {probe : Line → Option Nat} {lines : List Line} {sb : List Sample}
    (h : scanLines probe lines = .ok sb) :
    ∀ s ∈ sb, ∃ line ∈ lines,
      splitFirstSpace line = some (s.2.1, s.2.2) ∧ probe s.2.1 = some s.1 := by
  induction lines generalizing sb with
  | nil =>
    obtain rfl := Except.ok.inj h.symm
    intro s hs
    exact absurd hs (List.not_mem_nil s)
  | cons line rest ih =>
    cases hf : feature_length probe line with
    | error e => simp [scanLines, hf] at h
    | ok s0 =>
      cases hrest : scanLines probe rest with
      | error e => simp [scanLines, hf, hrest] at h
      | ok ss =>
        have : Except.ok (ε := PyError) (s0 :: ss) = .ok sb := by
          rw [← h]; simp [scanLines, hf, hrest]
        obtain rfl := Except.ok.inj this
        intro s hs
        rcases List.mem_cons.mp hs with rfl | hs'
        · obtain ⟨h1, h2⟩ := feature_length_ok hf
          exact ⟨line, List.mem_cons_self .., h1, h2⟩
        · obtain ⟨l', hl', hh⟩ := ih hrest s hs'
          exact ⟨l', List.mem_cons_of_mem _ hl', hh⟩

theorem scanLines_error_of_mem {probe : Line → Option Nat} {lines : List Line} {line : Line}
    {e : PyError} (hmem : line ∈ lines) (he : feature_length probe line = .error e) :
    ∃ e', scanLines probe lines = .error e' := by
  induction lines with
  | nil => exact absurd hmem (List.not_mem_nil line)
  | cons hd rest ih =>
    cases hf : feature_length probe hd with
    | error e2 => exact ⟨e2, by simp [scanLines, hf]⟩
    | ok s =>
      have hmem' : line ∈ rest := by
        rcases List.mem_cons.mp hmem with rfl | h'
        · rw [he] at hf; exact Except.noConfusion hf
        · exact h'
      obtain ⟨e', he'⟩ := ih hmem'
      exact ⟨e', by simp [scanLines, hf, he']⟩

/-! Helper lemmas characterising a run of sort_txt_by_seq_len. -/

theorem sort_error_of_scan_error {probe : Line → Option Nat} {lines : List Line}
    {nb ml : Nat} {e : PyError} (hscan : scanLines probe lines = .error e) :
    sort_txt_by_seq_len probe lines nb ml = .error e := by
  simp [sort_txt_by_seq_len, hscan]

theorem sort_error_of_buckets_error {probe : Line → Option Nat} {lines : List Line}
    {nb ml : Nat} {sb : List Sample} {e : PyError}
    (hscan : scanLines probe lines = .ok sb)
    (hbk : computeBuckets nb
      ((filterStep ml (List.insertionSort lenLE sb)).1.map (fun s => s.1)) = .error e) :
    sort_txt_by_seq_len probe lines nb ml = .error e := by
  simp [sort_txt_by_seq_len, hscan, hbk]

theorem sort_eq_ok {probe : Line → Option Nat} {lines : List Line}
    {nb ml : Nat} {sb : List Sample} {buckets : List Nat}
    (hscan : scanLines probe lines = .ok sb)
    (hbk : computeBuckets nb
      ((filterStep ml (List.insertionSort lenLE sb)).1.map (fun s => s.1)) = .ok buckets) :
    sort_txt_by_seq_len probe lines nb ml = .ok
      { buffer := (filterStep ml (List.insertionSort lenLE sb)).1
        boundaries := buckets.dropLast
        totalLength :=
          (Nat.cast (((filterStep ml (List.insertionSort lenLE sb)).1.map (fun s => s.1)).sum) : ℚ) / (1 / 10)
        removed := (filterStep ml (List.insertionSort lenLE sb)).2 } := by
  simp only [sort_txt_by_seq_len, hscan, hbk]

theorem sort_ok_elim {probe : Line → Option Nat} {lines : List Line}
    {nb ml : Nat} {r : SortResult} (h : sort_txt_by_seq_len probe lines nb ml = .ok r) :
    ∃ sb buckets,
      scanLines probe lines = .ok sb ∧
      computeBuckets nb
        ((filterStep ml (List.insertionSort lenLE sb)).1.map (fun s => s.1)) = .ok buckets ∧
      r = { buffer := (filterStep ml (List.insertionSort lenLE sb)).1
            boundaries := buckets.dropLast
            totalLength :=
              (Nat.cast (((filterStep ml (List.insertionSort lenLE sb)).1.map (fun s => s.1)).sum) : ℚ) / (1 / 10)
            removed := (filterStep ml (List.insertionSort lenLE sb)).2 } := by
  obtain ⟨sb, hscan⟩ : ∃ sb, scanLines probe lines = .ok sb := by
    cases hscan : scanLines probe lines with
    | error e =>
      rw [@sort_error_of_scan_error probe lines nb ml _ hscan] at h
      exact Except.noConfusion h
    | ok sb => exact ⟨sb, rfl⟩
  obtain ⟨buckets, hbk⟩ : ∃ b, computeBuckets nb
      ((filterStep ml (List.insertionSort lenLE sb)).1.map (fun s => s.1)) = .ok b := by
    cases hbk : computeBuckets nb
        ((filterStep ml (List.insertionSort lenLE sb)).1.map (fun s => s.1)) with
    | error e =>
      rw [sort_error_of_buckets_error hscan hbk] at h
      exact Except.noConfusion h
    | ok b => exact ⟨b, rfl⟩
  rw [sort_eq_ok hscan hbk] at h
  exact ⟨sb, buckets, hscan, hbk, (Except.ok.inj h).symm⟩

theorem filterStep_pos {ml : Nat} (hml : 0 < ml) (b : List Sample) :
    filterStep ml b =
      (b.filter (fun s => s.1 < ml), b.length - (b.filter (fun s => s.1 < ml)).length) := by
  simp [filterStep, hml]

theorem filterStep_zero (b : List Sample) : filterStep 0 b = (b, 0) := by
  simp [filterStep]

/-! Helper lemmas about the sorted set of distinct values. -/

theorem mem_insertDistinct {x a : Nat} (l : List Nat) :
    a ∈ insertDistinct x l ↔ a = x ∨ a ∈ l := by
  induction l with
  | nil => simp [insertDistinct]
  | cons y ys ih =>
    by_cases h1 : x < y
    · simp only [insertDistinct, if_pos h1, List.mem_cons]
    · by_cases h2 : x = y
      · simp only [insertDistinct, if_neg h1, if_pos h2, List.mem_cons]
        subst h2
        tauto
      · simp only [insertDistinct, if_neg h1, if_neg h2, List.mem_cons, ih]
        tauto

theorem sorted_insertDistinct {x : Nat} {l : List Nat} (h : List.Sorted (· < ·) l) :
    List.Sorted (· < ·) (insertDistinct x l) := by
  induction l with
  | nil => simp [insertDistinct]
  | cons y ys ih =>
    rw [List.sorted_cons] at h
    obtain ⟨hy, hys⟩ := h
    unfold insertDistinct
    by_cases h1 : x < y
    · rw [if_pos h1]
      refine List.sorted_cons.mpr ⟨?_, List.sorted_cons.mpr ⟨hy, hys⟩⟩
      intro b hb
      rcases List.mem_cons.mp hb with rfl | hb'
      · exact h1
      · exact lt_trans h1 (hy b hb')
    · by_cases h2 : x = y
      · rw [if_neg h1, if_pos h2]
        exact List.sorted_cons.mpr ⟨hy, hys⟩
      · rw [if_neg h1, if_neg h2]
        refine List.sorted_cons.mpr ⟨?_, ih hys⟩
        intro b hb
        rcases (mem_insertDistinct ys).mp hb with rfl | hb'
        · omega
        · exact hy b hb'

theorem length_insertDistinct_le (x : Nat) (l : List Nat) :
    (insertDistinct x l).length ≤ l.length + 1 := by
  induction l with
  | nil => simp [insertDistinct]
  | cons y ys ih =>
    unfold insertDistinct
    by_cases h1 : x < y
    · simp [if_pos h1]
    · by_cases h2 : x = y
      · simp [if_neg h1, if_pos h2]
      · simp only [if_neg h1, if_neg h2, List.length_cons]
        omega

theorem sortedDedup_sorted (l : List Nat) : List.Sorted (· < ·) (sortedDedup l) := by
  induction l with
  | nil => simp [sortedDedup]
  | cons x xs ih =>
    show List.Sorted (· < ·) (insertDistinct x (sortedDedup xs))
    exact sorted_insertDistinct ih

theorem mem_sortedDedup {a : Nat} (l : List Nat) : a ∈ sortedDedup l ↔ a ∈ l := by
  induction l with
  | nil => simp [sortedDedup]
  | cons x xs ih =>
    show a ∈ insertDistinct x (sortedDedup xs) ↔ _
    rw [mem_insertDistinct, ih]
    simp [List.mem_cons]

theorem length_sortedDedup_le (l : List Nat) : (sortedDedup l).length ≤ l.length := by
  induction l with
  | nil => simp [sortedDedup]
  | cons x xs ih =>
    show (insertDistinct x (sortedDedup xs)).length ≤ xs.length + 1
    have := length_insertDistinct_le x (sortedDedup xs)
    omega

/-! Helper lemmas about the embedded range. -/

theorem rangeListGo_irrel {stop step : Nat} :
    ∀ fuel fuel' start : Nat, stop - start ≤ fuel → stop - start ≤ fuel' →
      rangeListGo stop step fuel start = rangeListGo stop step fuel' start := by
  intro fuel
  induction fuel with
  | zero =>
    intro fuel' start h1 h2
    cases fuel' with
    | zero => rfl
    | succ n =>
      have hns : ¬start < stop := by omega
      simp [rangeListGo, hns]
  | succ n ih =>
    intro fuel' start h1 h2
    cases fuel' with
    | zero =>
      have hns : ¬start < stop := by omega
      simp [rangeListGo, hns]
    | succ m =>
      by_cases hc : 0 < step ∧ start < stop
      · simp only [rangeListGo, if_pos hc]
        rw [ih m (start + step) (by omega) (by omega)]
      · simp only [rangeListGo, if_neg hc]

theorem rangeList_eq_cons {start stop step : Nat} (hstep : 0 < step) (h2 : start < stop) :
    rangeList start stop step = start :: rangeList (start + step) stop step := by
  unfold rangeList
  have h3 : stop - start = (stop - start - 1) + 1 := by omega
  rw [h3]
  simp only [rangeListGo, if_pos (And.intro hstep h2)]
  rw [rangeListGo_irrel (stop - start - 1) (stop - (start + step)) (start + step)
    (by omega) (by omega)]

theorem rangeList_eq_nil {start stop step : Nat} (h : ¬(0 < step ∧ start < stop)) :
    rangeList start stop step = [] := by
  unfold rangeList
  cases hf : stop - start with
  | zero => rfl
  | succ n => simp [rangeListGo, h]

theorem mem_rangeList {step : Nat} (hstep : 0 < step) (start stop i : Nat) :
    i ∈ rangeList start stop step ↔ ∃ k, i = start + step * k ∧ i < stop := by
  by_cases h2 : start < stop
  · rw [rangeList_eq_cons hstep h2, List.mem_cons, mem_rangeList hstep (start + step) stop i]
    constructor
    · rintro (rfl | ⟨k, hk, hlt⟩)
      · exact ⟨0, by omega, h2⟩
      · refine ⟨k + 1, ?_, hlt⟩
        rw [Nat.mul_succ]
        omega
    · rintro ⟨k, hk, hlt⟩
      cases k with
      | zero => left; omega
      | succ k' =>
        right
        refine ⟨k', ?_, hlt⟩
        rw [Nat.mul_succ] at hk
        omega
  · rw [rangeList_eq_nil (fun hx => h2 hx.2)]
    constructor
    · intro hx; exact absurd hx (List.not_mem_nil i)
    · rintro ⟨k, hk, hlt⟩
      exfalso
      omega
termination_by stop - start
decreasing_by simp_wf; omega

theorem sorted_rangeList {step : Nat} (hstep : 0 < step) (start stop : Nat) :
    List.Sorted (· < ·) (rangeList start stop step) := by
  by_cases h2 : start < stop
  · rw [rangeList_eq_cons hstep h2]
    refine List.sorted_cons.mpr ⟨?_, sorted_rangeList hstep (start + step) stop⟩
    intro b hb
    obtain ⟨k, hk, _⟩ := (mem_rangeList hstep (start + step) stop b).mp hb
    omega
  · rw [rangeList_eq_nil (fun hx => h2 hx.2)]
    exact List.sorted_nil
termination_by stop - start
decreasing_by simp_wf; omega

/-! Helper lemmas characterising the bucket computation. -/

theorem computeBuckets_eq {nb : Nat} {lengths : List Nat} (h0 : nb ≠ 0)
    (h1 : lengths.length / nb ≠ 0) :
    computeBuckets nb lengths = .ok (sortedDedup ((rangeList (lengths.length / nb)
      lengths.length (lengths.length / nb)).map (fun i => lengths.getD i 0))) := by
  simp [computeBuckets, h0, h1]

theorem computeBuckets_zero_nb (lengths : List Nat) :
    computeBuckets 0 lengths = .error .divisionByZero := by
  simp [computeBuckets]

theorem computeBuckets_zero_step {nb : Nat} {lengths : List Nat} (h0 : nb ≠ 0)
    (h1 : lengths.length / nb = 0) :
    computeBuckets nb lengths = .error .rangeStepZero := by
  simp [computeBuckets, h0, h1]

theorem computeBuckets_ok_elim {nb : Nat} {lengths : List Nat} {buckets : List Nat}
    (h : computeBuckets nb lengths = .ok buckets) :
    nb ≠ 0 ∧ 0 < lengths.length / nb ∧
      buckets = sortedDedup ((rangeList (lengths.length / nb) lengths.length
        (lengths.length / nb)).map (fun i => lengths.getD i 0)) := by
  by_cases h0 : nb = 0
  · subst h0
    rw [computeBuckets_zero_nb] at h
    exact Except.noConfusion h
  · by_cases h1 : lengths.length / nb = 0
    · rw [computeBuckets_zero_step h0 h1] at h
      exact Except.noConfusion h
    · rw [computeBuckets_eq h0 h1] at h
      exact ⟨h0, Nat.pos_of_ne_zero h1, (Except.ok.inj h).symm⟩

instance : IsAntisymm Nat (· < ·) := ⟨fun _ _ h1 h2 => absurd h2 (Nat.lt_asymm h1)⟩

theorem sorted_lt_ext {l₁ l₂ : List Nat} (h₁ : List.Sorted (· < ·) l₁)
    (h₂ : List.Sorted (· < ·) l₂) (hm : ∀ a, a ∈ l₁ ↔ a ∈ l₂) : l₁ = l₂ :=
  List.eq_of_perm_of_sorted ((List.perm_ext_iff_of_nodup h₁.nodup h₂.nodup).mpr hm) h₁ h₂

theorem length_rangeList_le_of_eq_mul {step nb count : Nat} (hstep : 0 < step)
    (hcount : count = nb * step) :
    (rangeList step count step).length ≤ nb - 1 := by
  classical
  have hnodup : (rangeList step count step).Nodup := (sorted_rangeList hstep step count).nodup
  have hcomm : step * nb = nb * step := Nat.mul_comm step nb
  have hsub : ∀ i ∈ rangeList step count step,
      i ∈ (Finset.Icc 1 (nb - 1)).image (fun k => step * k) := by
    intro i hi
    obtain ⟨k, hk, hlt⟩ := (mem_rangeList hstep step count i).mp hi
    have h1 : step * (k + 1) < step * nb := by
      rw [Nat.mul_succ]
      omega
    have h2 : k + 1 < nb := Nat.lt_of_mul_lt_mul_left h1
    refine Finset.mem_image.mpr ⟨k + 1, Finset.mem_Icc.mpr ⟨by omega, by omega⟩, ?_⟩
    rw [Nat.mul_succ]
    omega
  calc (rangeList step count step).length
      = (rangeList step count step).toFinset.card := (List.toFinset_card_of_nodup hnodup).symm
    _ ≤ ((Finset.Icc 1 (nb - 1)).image (fun k => step * k)).card :=
        Finset.card_le_card (fun i hi => hsub i (List.mem_toFinset.mp hi))
    _ ≤ (Finset.Icc 1 (nb - 1)).card := Finset.card_image_le
    _ = nb - 1 := by rw [Nat.card_Icc]; omega

theorem filterStep_subset {ml : Nat} {b : List Sample} {s : Sample}
    (h : s ∈ (filterStep ml b).1) : s ∈ b := by
  unfold filterStep at h
  by_cases hml : 0 < ml
  · simp only [if_pos hml] at h
    exact List.mem_of_mem_filter h
  · simp only [if_neg hml] at h
    exact h

theorem sort_buffer_mem {probe : Line → Option Nat} {lines : List Line} {nb ml : Nat}
    {r : SortResult} (h : sort_txt_by_seq_len probe lines nb ml = .ok r) {s : Sample}
    (hs : s ∈ r.buffer) : ∃ sb, scanLines probe lines = .ok sb ∧ s ∈ sb := by
  obtain ⟨sb, buckets, hscan, hbk, rfl⟩ := sort_ok_elim h
  refine ⟨sb, hscan, ?_⟩
  have h1 : s ∈ List.insertionSort lenLE sb := filterStep_subset hs
  exact (List.mem_insertionSort lenLE).mp h1

theorem length_filter_not {α : Type} (p : α → Bool) (l : List α) :
    (l.filter (fun a => !(p a))).length = l.length - (l.filter p).length := by
  induction l with
  | nil => rfl
  | cons x xs ih =>
    have hle := List.length_filter_le p xs
    cases h : p x with
    | true =>
      rw [List.filter_cons_of_neg (by simp [h]), List.filter_cons_of_pos h,
        List.length_cons, List.length_cons, ih]
      omega
    | false =>
      rw [List.filter_cons_of_pos (by simp [h]), List.filter_cons_of_neg (by simp [h]),
        List.length_cons, List.length_cons, ih]
      omega

/-! Claim theorems. -/

/-- C10: a manifest line without any space makes the per-line probe fail with
the unpack error, independently of the probe oracle, hence before any audio
file is read; every guarantee about the scan presupposes a space in each
line. -/
theorem c10_no_space_unpack_error (probe : Line → Option Nat) (line : Line)
    (h : ' ' ∉ line) : feature_length probe line = .error .unpackError := by
  unfold feature_length
  rw [(splitFirstSpace_none_iff line).mpr h]

/-- C10 witness: the theorem applied to the spaceless line ab. -/
theorem c10_no_space_unpack_error_witness :
    ' ' ∉ (['a', 'b'] : Line) ∧
      feature_length probeAlpha ['a', 'b'] = .error .unpackError :=
  ⟨by decide, c10_no_space_unpack_error probeAlpha ['a', 'b'] (by decide)⟩

/-- C7: if probing the audio path of some manifest line fails, the whole run
of sort_txt_by_seq_len fails and the manifest file keeps its original
content byte for byte: the delete-and-rewrite happens only after every probe
succeeded. -/
theorem c7_probe_failure_aborts (probe : Line → Option Nat) (lines : List Line)
    (nb ml : Nat) (line p lab : Line) (hmem : line ∈ lines)
    (hsplit : splitFirstSpace line = some (p, lab)) (hprobe : probe p = none) :
    (∃ e, sort_txt_by_seq_len probe lines nb ml = .error e) ∧
      finalManifest probe lines nb ml = lines := by
  have hf : feature_length probe line = .error .sampleReadError := by
    simp [feature_length, hsplit, hprobe]
  obtain ⟨e', he'⟩ := scanLines_error_of_mem hmem hf
  have hsort := @sort_error_of_scan_error probe lines nb ml _ he'
  refine ⟨⟨e', hsort⟩, ?_⟩
  unfold finalManifest
  rw [hsort]

/-- C7 witness: the theorem applied to a one-line manifest whose path the
probe rejects. -/
theorem c7_probe_failure_aborts_witness :
    (∃ e, sort_txt_by_seq_len probeA [['q', ' ', 'z']] 64 1700 = .error e) ∧
      finalManifest probeA [['q', ' ', 'z']] 64 1700 = [['q', ' ', 'z']] :=
  c7_probe_failure_aborts probeA [['q', ' ', 'z']] 64 1700 ['q', ' ', 'z'] ['q'] ['z']
    (by decide) (by decide) (by decide)

/-- C8: splitting a line at its first space and re-joining the path and the
transcript with one space is the identity on every line containing a space
(the measured length is not persisted), and consequently every line of the
rewritten manifest is one of the original input lines. -/
theorem c8_split_rejoin_identity :
    (∀ line : Line, ' ' ∈ line →
      ∃ p lab, splitFirstSpace line = some (p, lab) ∧
        ∀ n : Nat, renderLine (n, p, lab) = line) ∧
    (∀ (probe : Line → Option Nat) (lines : List Line) (nb ml : Nat) (r : SortResult),
      sort_txt_by_seq_len probe lines nb ml = .ok r → ∀ m ∈ r.manifest, m ∈ lines) := by
  constructor
  · intro line hline
    obtain ⟨p, lab, hsplit⟩ := splitFirstSpace_of_mem hline
    obtain ⟨hnp, hjoin⟩ := splitFirstSpace_spec hsplit
    exact ⟨p, lab, hsplit, fun n => hjoin⟩
  · intro probe lines nb ml r hr m hm
    simp only [SortResult.manifest] at hm
    obtain ⟨s, hs, rfl⟩ := List.mem_map.mp hm
    obtain ⟨sb, hscan, hmem⟩ := sort_buffer_mem hr hs
    obtain ⟨line, hline, hsplit, _⟩ := scanLines_ok_mem hscan s hmem
    obtain ⟨hnp, hjoin⟩ := splitFirstSpace_spec hsplit
    have hrend : renderLine s = line := hjoin
    rw [hrend]
    exact hline

/-- C8 witness: the split-and-rejoin identity on the line a x, and the
manifest of a successful five-line run consisting of input lines only. -/
theorem c8_split_rejoin_identity_witness :
    (∃ p lab, splitFirstSpace ['a', ' ', 'x'] = some (p, lab) ∧
      ∀ n : Nat, renderLine (n, p, lab) = ['a', ' ', 'x']) ∧
    ∃ r, sort_txt_by_seq_len probeAlpha linesAlpha5 3 0 = .ok r ∧
      ∀ m ∈ r.manifest, m ∈ linesAlpha5 :=
  ⟨c8_split_rejoin_identity.1 ['a', ' ', 'x'] (by decide),
   ⟨_, rfl, fun m hm =>
      c8_split_rejoin_identity.2 probeAlpha linesAlpha5 3 0 _ rfl m hm⟩⟩

/-- C9: the merge step fails exactly on a target split name outside
test/dev/train; on a recognized target it returns the target path together
with the merged lines and their count. -/
theorem c9_merge_target (txtDir : String) (files : List (List Line)) (target : String) :
    ((∃ e, merge_txt_files txtDir files target = .error e) ↔
      ¬(target = "test" ∨ target = "dev" ∨ target = "train")) ∧
    ((target = "test" ∨ target = "dev" ∨ target = "train") →
      merge_txt_files txtDir files target =
        .ok (txtDir ++ "/" ++ target ++ ".txt", files.flatten, files.flatten.length)) := by
  unfold merge_txt_files
  by_cases ht : target = "test" ∨ target = "dev" ∨ target = "train"
  · rw [if_pos ht]
    refine ⟨⟨fun he _ => ?_, fun hn => absurd ht hn⟩, fun _ => rfl⟩
    obtain ⟨e, he⟩ := he
    exact Except.noConfusion he
  · rw [if_neg ht]
    exact ⟨⟨fun _ => ht, fun _ => ⟨.invalidTarget, rfl⟩⟩, fun hx => absurd hx ht⟩

/-- C9 witness: a successful merge into the train split and a failing merge
into an unknown split. -/
theorem c9_merge_target_witness :
    merge_txt_files dirData [[['a', ' ', 'b']], []] tgtTrain =
      .ok (dirData ++ "/" ++ tgtTrain ++ ".txt", [['a', ' ', 'b']], 1) ∧
    ∃ e, merge_txt_files dirData [] tgtBad = .error e := by
  constructor
  · have h := (c9_merge_target dirData [[['a', ' ', 'b']], []] tgtTrain).2
      (by right; right; rfl)
    rw [h]
    rfl
  · exact ((c9_merge_target dirData [] tgtBad).1).mpr (by decide)

/-- C2 counterexample: on the empty manifest with the default parameters the
run fails with the zero-stride range error instead of completing. -/
theorem c2_counterexample :
    sort_txt_by_seq_len probeAlpha [] 64 1700 = .error .rangeStepZero := rfl

/-- C2 amended: for an empty input manifest the run does not complete: the
bucket stride is zero, so the range construction fails, and the manifest
file keeps its empty content since nothing is written. -/
theorem c2_empty_manifest (probe : Line → Option Nat) (ml : Nat) :
    sort_txt_by_seq_len probe [] 64 ml = .error .rangeStepZero ∧
      finalManifest probe [] 64 ml = [] := by
  have hscan : scanLines probe [] = .ok [] := rfl
  have hb1 : (filterStep ml (List.insertionSort lenLE ([] : List Sample))).1 = [] := by
    unfold filterStep
    by_cases h : 0 < ml
    · simp [h]
    · simp [h]
  have hbk : computeBuckets 64
      ((filterStep ml (List.insertionSort lenLE ([] : List Sample))).1.map
        (fun s => s.1)) = .error .rangeStepZero := by
    rw [hb1]
    exact computeBuckets_zero_step (by decide) (by decide)
  have hsort := sort_error_of_buckets_error hscan hbk
  refine ⟨hsort, ?_⟩
  unfold finalManifest
  rw [hsort]

/-- C1: generate_dataset stores the total corpus length returned by
sort_txt_by_seq_len in both the train_size and the train_length field of the
corpus metadata, because the variable holding the merged train line count is
rebound to the total length before store_corpus_json is called; on a corpus
whose merged train manifest has 64 lines of length 5, train_size becomes
3200.0 (the total length), not the line count 64 that store_corpus_json's
own documentation promises. -/
theorem c1_train_size_gets_total_length :
    ∃ j, generate_dataset probeA dirData linesTrain64 [] [] [] [] [] [] [] = .ok j ∧
      j.train_size = j.train_length ∧
      (merge_txt_files dirData [linesTrain64, [], [], [], []] tgtTrain).map
        (fun t => t.2.2) = .ok 64 ∧
      j.train_size = 3200 ∧ j.train_size ≠ 64 := by
  have h : generate_dataset probeA dirData linesTrain64 [] [] [] [] [] [] [] = .ok
      (store_corpus_json ((320 : ℚ) / (1 / 10)) 0 0 [] ((320 : ℚ) / (1 / 10))) := rfl
  refine ⟨_, h, rfl, rfl, ?_, ?_⟩
  · show ((320 : ℚ) / (1 / 10)) = 3200
    norm_num
  · show ((320 : ℚ) / (1 / 10)) ≠ 64
    norm_num

/-- C4: in every successful run the buffer backing the rewritten manifest is
ordered by non-decreasing feature length, and each written manifest line
decodes, by re-splitting at its first space and re-probing the path, to
exactly its sample's measured length; hence the manifest lines appear in
non-decreasing order of decoded length. -/
theorem c4_manifest_sorted (probe : Line → Option Nat) (lines : List Line)
    (nb ml : Nat) (r : SortResult) (h : sort_txt_by_seq_len probe lines nb ml = .ok r) :
    List.Sorted (· ≤ ·) (r.buffer.map (fun s => s.1)) ∧
      r.manifest.map (decodedLen probe) = r.buffer.map (fun s => some s.1) := by
  obtain ⟨sb, buckets, hscan, hbk, hr⟩ := sort_ok_elim h
  have hbuf : r.buffer = (filterStep ml (List.insertionSort lenLE sb)).1 := by rw [hr]
  constructor
  · have hsorted : List.Sorted lenLE (List.insertionSort lenLE sb) :=
      List.sorted_insertionSort lenLE sb
    have hsorted1 : List.Sorted lenLE r.buffer := by
      rw [hbuf]
      unfold filterStep
      by_cases hml : 0 < ml
      · simp only [if_pos hml]
        exact List.Pairwise.sublist (List.filter_sublist _) hsorted
      · simp only [if_neg hml]
        exact hsorted
    exact List.pairwise_map.mpr hsorted1
  · simp only [SortResult.manifest, List.map_map]
    refine List.map_congr_left ?_
    intro s hs
    obtain ⟨sb', hscan', hmem⟩ := sort_buffer_mem h hs
    obtain rfl : sb' = sb := by
      rw [hscan] at hscan'
      exact (Except.ok.inj hscan').symm
    obtain ⟨line, hline, hsplit, hp⟩ := scanLines_ok_mem hscan s hmem
    obtain ⟨hnp, hjoin⟩ := splitFirstSpace_spec hsplit
    show decodedLen probe (renderLine s) = some s.1
    unfold decodedLen renderLine
    rw [splitFirstSpace_append hnp]
    exact hp

/-- C4 witness: the theorem applied to a successful run on ten concrete
lines. -/
theorem c4_manifest_sorted_witness :
    ∃ r, sort_txt_by_seq_len probeTen linesTen 3 1700 = .ok r ∧
      (List.Sorted (· ≤ ·) (r.buffer.map (fun s => s.1)) ∧
        r.manifest.map (decodedLen probeTen) = r.buffer.map (fun s => some s.1)) :=
  ⟨_, rfl, c4_manifest_sorted probeTen linesTen 3 1700 _ rfl⟩

/-- C5: in every successful run with a positive max_length the retained
buffer holds exactly the probed samples of length strictly below max_length
(a sample whose length equals max_length is dropped), and the reported
removed count equals the number of samples dropped; with max_length zero the
buffer is a permutation of all probed samples and nothing is removed. -/
theorem c5_max_length_filter (probe : Line → Option Nat) (lines : List Line)
    (nb ml : Nat) (sb : List Sample) (r : SortResult)
    (hscan : scanLines probe lines = .ok sb)
    (h : sort_txt_by_seq_len probe lines nb ml = .ok r) :
    (0 < ml →
      (∀ s : Sample, s ∈ r.buffer ↔ s ∈ sb ∧ s.1 < ml) ∧
        r.removed = (sb.filter (fun s => ¬s.1 < ml)).length) ∧
    (ml = 0 → r.buffer.Perm sb ∧ r.removed = 0) := by
  obtain ⟨sb', buckets, hscan', hbk, hr⟩ := sort_ok_elim h
  rw [hscan] at hscan'
  have hsb : sb = sb' := Except.ok.inj hscan'
  subst hsb
  have hbuf : r.buffer = (filterStep ml (List.insertionSort lenLE sb)).1 := by rw [hr]
  have hrem : r.removed = (filterStep ml (List.insertionSort lenLE sb)).2 := by rw [hr]
  have hperm := List.perm_insertionSort lenLE sb
  constructor
  · intro hml
    rw [filterStep_pos hml] at hbuf hrem
    dsimp only at hbuf hrem
    constructor
    · intro s
      rw [hbuf, List.mem_filter]
      simp only [decide_eq_true_eq]
      exact and_congr_left (fun _ => hperm.mem_iff)
    · rw [hrem]
      have h1 : (List.insertionSort lenLE sb).length = sb.length := hperm.length_eq
      have h2 : ((List.insertionSort lenLE sb).filter
          (fun s => decide (s.1 < ml))).length =
          (sb.filter (fun s => decide (s.1 < ml))).length :=
        (hperm.filter _).length_eq
      rw [h1, h2, ← length_filter_not]
      simp only [decide_not]
  · intro hml0
    subst hml0
    rw [filterStep_zero] at hbuf hrem
    exact ⟨hbuf ▸ hperm, hrem⟩

/-- C5 witness: the theorem applied to the ten-line corpus whose tenth sample
has length exactly max_length = 1700. -/
theorem c5_max_length_filter_witness :
    ∃ sb r, scanLines probeTen linesTen = .ok sb ∧
      sort_txt_by_seq_len probeTen linesTen 3 1700 = .ok r ∧
      ((0 < 1700 →
        (∀ s : Sample, s ∈ r.buffer ↔ s ∈ sb ∧ s.1 < 1700) ∧
          r.removed = (sb.filter (fun s => ¬s.1 < 1700)).length) ∧
      (1700 = 0 → r.buffer.Perm sb ∧ r.removed = 0)) :=
  ⟨_, _, rfl, rfl, c5_max_length_filter probeTen linesTen 3 1700 _ _ rfl rfl⟩

/-- C3 counterexample: a completed run with 5 filtered samples and 3 buckets
has stride 1 and returns the three boundaries 98, 99 and 100, exceeding
num_buckets - 1 = 2. -/
theorem c3_counterexample :
    ∃ r, sort_txt_by_seq_len probeAlpha linesAlpha5 3 0 = .ok r ∧
      r.buffer.length = 5 ∧ r.boundaries = [98, 99, 100] ∧
      3 - 1 < r.boundaries.length :=
  ⟨_, rfl, rfl, rfl, by decide⟩

/-- C3 amended: the returned boundary list of every completed run is strictly
increasing; the bound of at most num_buckets - 1 elements holds whenever
num_buckets divides the filtered sample count, but can fail otherwise, since
the stride walk visits up to count - 1 indices when the stride is small. -/
theorem c3_boundaries (probe : Line → Option Nat) (lines : List Line) (nb ml : Nat)
    (r : SortResult) (h : sort_txt_by_seq_len probe lines nb ml = .ok r) :
    List.Pairwise (· < ·) r.boundaries ∧
      (nb ∣ r.buffer.length → r.boundaries.length ≤ nb - 1) := by
  obtain ⟨sb, buckets, hscan, hbk, hr⟩ := sort_ok_elim h
  obtain ⟨h0, h1, hb⟩ := computeBuckets_ok_elim hbk
  have hbnd : r.boundaries = buckets.dropLast := by rw [hr]
  have hbuf : r.buffer = (filterStep ml (List.insertionSort lenLE sb)).1 := by rw [hr]
  constructor
  · rw [hbnd, hb]
    exact List.Pairwise.sublist (List.dropLast_sublist _) (sortedDedup_sorted _)
  · intro hdvd
    rw [hbuf] at hdvd
    have hdvdL : nb ∣
        ((filterStep ml (List.insertionSort lenLE sb)).1.map (fun s => s.1)).length := by
      rw [List.length_map]
      exact hdvd
    have hcanc := Nat.div_mul_cancel hdvdL
    have hmul :
        ((filterStep ml (List.insertionSort lenLE sb)).1.map (fun s => s.1)).length =
        nb * (((filterStep ml (List.insertionSort lenLE sb)).1.map
          (fun s => s.1)).length / nb) := by
      rw [Nat.mul_comm]
      exact hcanc.symm
    have hidx := length_rangeList_le_of_eq_mul h1 hmul
    rw [hbnd, hb]
    have hsd := le_trans
      (length_sortedDedup_le
        ((rangeList
            (((filterStep ml (List.insertionSort lenLE sb)).1.map (fun s => s.1)).length / nb)
            (((filterStep ml (List.insertionSort lenLE sb)).1.map (fun s => s.1)).length)
            (((filterStep ml (List.insertionSort lenLE sb)).1.map (fun s => s.1)).length / nb)).map
          (fun i => ((filterStep ml (List.insertionSort lenLE sb)).1.map
            (fun s => s.1)).getD i 0)))
      (le_of_eq (List.length_map _ _))
    have hdl := List.length_dropLast
      (sortedDedup
        ((rangeList
            (((filterStep ml (List.insertionSort lenLE sb)).1.map (fun s => s.1)).length / nb)
            (((filterStep ml (List.insertionSort lenLE sb)).1.map (fun s => s.1)).length)
            (((filterStep ml (List.insertionSort lenLE sb)).1.map (fun s => s.1)).length / nb)).map
          (fun i => ((filterStep ml (List.insertionSort lenLE sb)).1.map
            (fun s => s.1)).getD i 0)))
    omega

/-- C3 witness: the amended theorem applied to a run with 5 samples and 5
buckets, where the divisibility side condition holds. -/
theorem c3_boundaries_witness :
    ∃ r, sort_txt_by_seq_len probeAlpha linesAlpha5 5 0 = .ok r ∧
      (List.Pairwise (· < ·) r.boundaries ∧
        (5 ∣ r.buffer.length → r.boundaries.length ≤ 5 - 1)) :=
  ⟨_, rfl, c3_boundaries probeAlpha linesAlpha5 5 0 _ rfl⟩

theorem rangeList_eq_filter_range {step count : Nat} (hstep : 0 < step) :
    rangeList step count step =
      (List.range count).filter (fun i => i ≠ 0 ∧ i % step = 0) := by
  apply sorted_lt_ext (sorted_rangeList hstep step count)
    (List.Pairwise.sublist (List.filter_sublist _) (List.pairwise_lt_range count))
  intro a
  rw [mem_rangeList hstep, List.mem_filter, List.mem_range]
  simp only [decide_eq_true_eq]
  constructor
  · rintro ⟨k, hk, hlt⟩
    have hi : a = step * (k + 1) := by rw [Nat.mul_succ]; omega
    refine ⟨hlt, by omega, ?_⟩
    rw [hi]
    exact Nat.mul_mod_right step (k + 1)
  · rintro ⟨hlt, hne, hmod⟩
    obtain ⟨m, hm⟩ := Nat.dvd_of_mod_eq_zero hmod
    cases m with
    | zero =>
      rw [Nat.mul_zero] at hm
      exact absurd hm hne
    | succ m' =>
      refine ⟨m', ?_, hlt⟩
      rw [Nat.mul_succ] at hm
      omega

theorem sortedDedup_eq_sort_toFinset (l : List Nat) :
    sortedDedup l = l.toFinset.sort (· ≤ ·) := by
  apply sorted_lt_ext (sortedDedup_sorted l) (Finset.sort_sorted_lt _)
  intro a
  rw [mem_sortedDedup, Finset.mem_sort, List.mem_toFinset]

/-- C6: the returned bucket boundaries of every completed run equal the
specification's description of the computation on the sorted filtered length
sequence: with step the integer quotient of the count by num_buckets, walk
the lengths at the nonzero multiples of step below the count, collect the
visited values into a set, sort it ascending, and return all but the last
element. -/
theorem c6_boundaries_match_spec (probe : Line → Option Nat) (lines : List Line)
    (nb ml : Nat) (r : SortResult) (h : sort_txt_by_seq_len probe lines nb ml = .ok r) :
    r.boundaries = spec_bucket_boundaries nb (r.buffer.map (fun s => s.1)) := by
  obtain ⟨sb, buckets, hscan, hbk, hr⟩ := sort_ok_elim h
  obtain ⟨h0, h1, hb⟩ := computeBuckets_ok_elim hbk
  have hbnd : r.boundaries = buckets.dropLast := by rw [hr]
  have hbuf : r.buffer = (filterStep ml (List.insertionSort lenLE sb)).1 := by rw [hr]
  rw [hbnd, hb, hbuf]
  simp only [spec_bucket_boundaries]
  rw [sortedDedup_eq_sort_toFinset, rangeList_eq_filter_range h1]

/-- C6 witness: the theorem applied to a completed run with 5 samples and 2
buckets. -/
theorem c6_boundaries_match_spec_witness :
    ∃ r, sort_txt_by_seq_len probeAlpha linesAlpha5 2 0 = .ok r ∧
      r.boundaries = spec_bucket_boundaries 2 (r.buffer.map (fun s => s.1)) :=
  ⟨_, rfl, c6_boundaries_match_spec probeAlpha linesAlpha5 2 0 _ rfl⟩

end CtcAsr
